import Mathlib

/-!
Shallow embedding of `convolution.cc` (hacampbell/convolution-filter).

The program reads a square integer matrix from a binary file and splits its
rows between `numThreads` workers.  The embedded functions below are direct
translations of the C functions:

* `atoi`, `ProcessArguments` — command-line validation (`ProcessArguments`
  from the final revision of `convolution.cc`, which calls
  `exit(EXIT_FAILURE)` on bad arguments; the error value records the exit
  code and the console lines printed before exiting);
* `GetMatrixDimension` — dimension inference from the file size in bytes;
* `GetMatrixWork` — the row-partitioning core;
* `CalculateFilter` — the per-thread dispatch; the C function's observable
  behaviour is its console output and the (unchanged) matrix, so the
  embedding threads the matrix state through the loop explicitly and
  returns the trace of processed rows together with the final state;
* `mainLoop` — the sequential `for (i = 0; i < numThreads; i++)` loop of
  `main` that invokes `CalculateFilter` for every thread index.

C `int` values are modelled as `Int`; `/` and `%` on C ints are
`Int.tdiv` / `Int.tmod` (truncation toward zero, the C semantics).
-/

/-- One step of C `atoi`'s digit-accumulation loop over the remaining
characters. -/
def atoiLoop : List Char → Int → Int
  | [], acc => acc
  | c :: cs, acc =>
    if c.isDigit then atoiLoop cs (acc * 10 + Int.ofNat (c.toNat - 48)) else acc

/-- C `isspace` for the characters `atoi` skips. -/
def isSpaceChar (c : Char) : Bool :=
  c = ' ' ∨ c = '\t' ∨ c = '\n' ∨ c = '\x0b' ∨ c = '\x0c' ∨ c = '\r'

/-- C `atoi`: skip leading whitespace, read an optional sign, then the
longest digit prefix; no digits yields `0`. -/
def atoi (s : String) : Int :=
  match s.toList.dropWhile (fun c => isSpaceChar c) with
  | '-' :: rest => - atoiLoop rest 0
  | '+' :: rest => atoiLoop rest 0
  | rest => atoiLoop rest 0

/-- POSIX `EXIT_FAILURE`. -/
def EXIT_FAILURE : Nat := 1

/-- Console lines printed when the argument count is wrong. -/
def usageArgc : List String :=
  ["[ERROR] Invalid number of arguments given.",
   "Usage:",
   "\tconvolution [matrixFile] [filterDepth] [numThreads]"]

/-- Console lines printed when depth or thread count fail the `atoi` check. -/
def usageValues : List String :=
  ["[ERROR] Invalid values given for depth or numThreads",
   "Usage:",
   "\tconvolution [matrixFile] [filterDepth] [numThreads]",
   "Where filterDepth and numThreads are ints > 0"]

/-- `ProcessArguments` from `convolution.cc` (final revision): checks
`argc < 4`, then `atoi(argv[2]) == 0 || atoi(argv[3]) == 0`, and calls
`exit(EXIT_FAILURE)` after printing a usage message when a check fails.
`Except.error (code, lines)` models `exit(code)` after printing `lines`;
`Except.ok (file, depth, threads)` models the values stored through the out
parameters, after which `main` continues into the core work. -/
def ProcessArguments (argv : List String) : Except (Nat × List String) (String × Int × Int) :=
  if argv.length < 4 then
    Except.error (EXIT_FAILURE, usageArgc)
  else if atoi (argv.getD 2 "") = 0 ∨ atoi (argv.getD 3 "") = 0 then
    Except.error (EXIT_FAILURE, usageValues)
  else
    Except.ok (argv.getD 1 "", atoi (argv.getD 2 ""), atoi (argv.getD 3 ""))

/-- `GetMatrixDimension`, given the `ftell` file size in bytes: the C code
computes `dimension = size / 4` (`int` division) and returns
`sqrt(dimension)`, the correctly rounded IEEE-double square root truncated
to `int` by the return conversion.  For `0 ≤ dimension < 2^31` the double
square root of an exact integer truncates to exactly the integer square
root (the correctly rounded `sqrt` is within one ulp, far less than the
distance `≥ 1/(2·sqrt d)` from the nearest integer boundary), so the
truncated result is `Nat.sqrt dimension`. -/
def GetMatrixDimension (size : Int) : Int :=
  (Nat.sqrt (size.tdiv 4).toNat : Int)

/-- `GetMatrixWork`: computes the `(start, end)` row range a thread works
on, written exactly as the C function computes it (`remainder` and
`workload` from the two branches, then `start`/`end`, then the remainder
for the last thread, then the `(-1, -1)` override when `tid ≥ matrixDim`).
`floor(matrixDim / numT)` in the C source is `int` division followed by
`floor` on an already-integral double, i.e. `Int.tdiv`. -/
def GetMatrixWork (matrixDim numT tid : Int) : Int × Int :=
  let remainder : Int := if numT ≥ matrixDim then 0 else matrixDim.tmod numT
  let workload : Int := if numT ≥ matrixDim then 1 else matrixDim.tdiv numT
  let start : Int := workload * tid
  let end1 : Int := workload * (tid + 1)
  let end2 : Int := if tid = numT - 1 then end1 + remainder else end1
  if tid ≥ matrixDim then (-1, -1) else (start, end2)

/-- The list of integers `a, a+1, …, b-1` (empty when `b ≤ a`): the values
taken by a C loop `for (row = a; row < b; row++)`. -/
def intRange (a b : Int) : List Int :=
  (List.range (b - a).toNat).map (fun (k : Nat) => a + (k : Int))

/-- The inner column loop of `CalculateFilter`: the values
`matrix[row][0], …, matrix[row][matrixDim-1]` read in column order. -/
def colVals (matrix : Int → Int → Int) (matrixDim row : Int) : List Int :=
  (List.range matrixDim.toNat).map (fun (i : Nat) => matrix row (i : Int))

/-- `CalculateFilter`: resolves the thread's range via `GetMatrixWork`,
returns immediately on the `(-1, -1)` sentinel, and otherwise loops over
the rows `start, …, end-1`.  The matrix is mutable state in C, so the loop
threads it explicitly: each iteration reads the current state `st.1` and
appends the processed row (its index and the values read in column order)
to the trace `st.2`; the C body performs no writes, so the state component
is passed through unchanged.  Returns `(final matrix state, trace)`. -/
def CalculateFilter (matrix : Int → Int → Int) (matrixDim numT tid : Int) :
    (Int → Int → Int) × List (Int × List Int) :=
  let w := GetMatrixWork matrixDim numT tid
  if w.1 = -1 ∧ w.2 = -1 then (matrix, [])
  else
    (intRange w.1 w.2).foldl
      (fun st row => (st.1, st.2 ++ [(row, colVals st.1 matrixDim row)]))
      (matrix, [])

/-- The `printf("Thread %d of %d\n", tid, numT)` header line. -/
def headerLine (tid numT : Int) : String :=
  "Thread " ++ toString tid ++ " of " ++ toString numT

/-- One printed row: each value followed by a tab, as the inner
`cout << matrix[row][i] << "\t"` loop emits it. -/
def renderRow (vals : List Int) : String :=
  String.join (vals.map (fun v => toString v ++ "\t"))

/-- The console lines `CalculateFilter` prints: nothing on the sentinel
(the early `return` precedes the header `printf`), otherwise the thread
header followed by one tab-separated line per processed row. -/
def CalculateFilterOutput (matrix : Int → Int → Int) (matrixDim numT tid : Int) :
    List String :=
  let w := GetMatrixWork matrixDim numT tid
  if w.1 = -1 ∧ w.2 = -1 then []
  else headerLine tid numT ::
    ((CalculateFilter matrix matrixDim numT tid).2).map (fun p => renderRow p.2)

/-- The first `k` iterations of the work-distribution loop in `main`
(`for (i = 0; i < numThreads; i++) CalculateFilter(matrix, …, i)`), with
the matrix state threaded from one call to the next and the row traces
concatenated in loop order. -/
def mainLoopAux (matrix : Int → Int → Int) (matrixDim numT : Int) :
    Nat → (Int → Int → Int) × List (Int × List Int)
  | 0 => (matrix, [])
  | Nat.succ k =>
    let p := mainLoopAux matrix matrixDim numT k
    let q := CalculateFilter p.1 matrixDim numT (k : Int)
    (q.1, p.2 ++ q.2)

/-- The complete work-distribution loop of `main`: all `numT` iterations. -/
def mainLoop (matrix : Int → Int → Int) (matrixDim numT : Int) :
    (Int → Int → Int) × List (Int × List Int) :=
  mainLoopAux matrix matrixDim numT numT.toNat

/-- Row `r` belongs to the range `GetMatrixWork` assigns to thread `tid`:
the range is not the `(-1, -1)` empty sentinel (which `CalculateFilter`
skips, so a sentinel range contributes no rows) and `start ≤ r < end`. -/
def assignedRows (matrixDim numT tid r : Int) : Prop :=
  ¬((GetMatrixWork matrixDim numT tid).1 = -1 ∧ (GetMatrixWork matrixDim numT tid).2 = -1) ∧
  (GetMatrixWork matrixDim numT tid).1 ≤ r ∧ r < (GetMatrixWork matrixDim numT tid).2

instance (matrixDim numT tid r : Int) : Decidable (assignedRows matrixDim numT tid r) := by
  unfold assignedRows; infer_instance

/-- The `workload` local of `GetMatrixWork`. -/
def workloadOf (matrixDim numT : Int) : Int :=
  if numT ≥ matrixDim then 1 else matrixDim.tdiv numT

/-- The `remainder` local of `GetMatrixWork`. -/
def remainderOf (matrixDim numT : Int) : Int :=
  if numT ≥ matrixDim then 0 else matrixDim.tmod numT

/-- A concrete example matrix used to witness the universally quantified
theorems: entry `(i, j)` is `10 * i + j`. -/
def mEx : Int → Int → Int := fun i j => 10 * i + j

/-! ### Helper lemmas about the partitioning arithmetic -/

/-- Closed form of `GetMatrixWork` via the `workload` / `remainder` locals. -/
lemma getMatrixWork_eq (N T tid : Int) :
    GetMatrixWork N T tid =
      if N ≤ tid then (-1, -1)
      else (workloadOf N T * tid,
        workloadOf N T * (tid + 1) + (if tid = T - 1 then remainderOf N T else 0)) := by
  unfold GetMatrixWork workloadOf remainderOf
  by_cases h1 : T ≥ N <;> by_cases h2 : tid = T - 1 <;> by_cases h3 : N ≤ tid <;>
    simp [h1, h2, h3, ge_iff_le]

/-- The per-thread workload is at least one row. -/
lemma workloadOf_pos (N T : Int) (hN : 1 ≤ N) (hT : 1 ≤ T) : 1 ≤ workloadOf N T := by
  unfold workloadOf
  split
  · exact le_refl 1
  · rename_i h
    have hTN : T < N := by omega
    rw [Int.tdiv_eq_ediv (by omega) (by omega),
      Int.le_ediv_iff_mul_le (by omega : (0:Int) < T)]
    omega

/-- The remainder is nonnegative. -/
lemma remainderOf_nonneg (N T : Int) (hN : 1 ≤ N) (hT : 1 ≤ T) : 0 ≤ remainderOf N T := by
  unfold remainderOf
  split
  · exact le_refl 0
  · exact Int.tmod_nonneg T (by omega)

/-- In the dense branch (`T < N`), workload and remainder reassemble `N`. -/
lemma dense_sum (N T : Int) (hT : 1 ≤ T) (hTN : T < N) :
    workloadOf N T * T + remainderOf N T = N := by
  unfold workloadOf remainderOf
  have h : ¬ (T ≥ N) := by omega
  simp only [h, if_false]
  have h2 := Int.tdiv_add_tmod N T
  linarith

/-- In the sparse branch (`T ≥ N`), workload is `1` and remainder is `0`. -/
lemma sparse_vals (N T : Int) (hNT : N ≤ T) :
    workloadOf N T = 1 ∧ remainderOf N T = 0 := by
  unfold workloadOf remainderOf
  simp [ge_iff_le, hNT]

/-! ### Helper lemmas about the dispatch loop -/

/-- The row loop of `CalculateFilter` never writes to the matrix state, so
folding it is appending the per-row results computed against the initial
state. -/
lemma foldl_readonly (g : (Int → Int → Int) → Int → Int × List Int) (m : Int → Int → Int) :
    ∀ (l : List Int) (acc : List (Int × List Int)),
      l.foldl (fun st row => (st.1, st.2 ++ [g st.1 row])) (m, acc) =
        (m, acc ++ l.map (g m)) := by
  intro l
  induction l with
  | nil => intro acc; simp
  | cons x xs ih =>
    intro acc
    simpa using ih (acc ++ [g m x])

/-- Closed form of `CalculateFilter`: the matrix state is returned
unchanged, and the trace maps the row loop over the assigned range. -/
lemma calculateFilter_eq (m : Int → Int → Int) (N T tid : Int) :
    CalculateFilter m N T tid =
      if (GetMatrixWork N T tid).1 = -1 ∧ (GetMatrixWork N T tid).2 = -1 then (m, [])
      else (m, (intRange (GetMatrixWork N T tid).1 (GetMatrixWork N T tid).2).map
        (fun row => (row, colVals m N row))) := by
  by_cases h : (GetMatrixWork N T tid).1 = -1 ∧ (GetMatrixWork N T tid).2 = -1
  · rw [if_pos h]
    unfold CalculateFilter
    simp only [if_pos h]
  · rw [if_neg h]
    unfold CalculateFilter
    simp only [if_neg h]
    exact foldl_readonly (fun mat row => (row, colVals mat N row)) m
      (intRange (GetMatrixWork N T tid).1 (GetMatrixWork N T tid).2) []

/-- `CalculateFilter` leaves the matrix state unchanged. -/
lemma calculateFilter_fst (m : Int → Int → Int) (N T tid : Int) :
    (CalculateFilter m N T tid).1 = m := by
  rw [calculateFilter_eq]
  split <;> rfl

/-! ### Helper lemmas about `intRange` -/

lemma intRange_append (a b c : Int) (h1 : a ≤ b) (h2 : b ≤ c) :
    intRange a b ++ intRange b c = intRange a c := by
  unfold intRange
  have hn : (c - a).toNat = (b - a).toNat + (c - b).toNat := by omega
  rw [hn, List.range_add, List.map_append, List.map_map]
  have hfun : ((fun (k : Nat) => a + (k : Int)) ∘ fun x => (b - a).toNat + x) =
      fun (k : Nat) => b + (k : Int) := by
    funext k
    simp only [Function.comp_apply]
    omega
  rw [hfun]

lemma intRange_pairwise (a b : Int) : List.Pairwise (· < ·) (intRange a b) := by
  unfold intRange
  exact List.Pairwise.map _ (fun x y h => by omega) (List.pairwise_lt_range _)

lemma intRange_self (a : Int) : intRange a a = [] := by
  unfold intRange
  simp

/-- For valid `N` and `T`, `GetMatrixWork` yields the `(-1, -1)` sentinel
exactly for `tid ≥ N`: a genuine range starts at `workload * tid ≥ 0` when
`tid ≥ 0`, and for negative `tid` start and end cannot both be `-1` since
they differ by at least the positive workload. -/
lemma getMatrixWork_sentinel_iff (N T : Int) (hN : 1 ≤ N) (hT : 1 ≤ T) (tid : Int) :
    ((GetMatrixWork N T tid).1 = -1 ∧ (GetMatrixWork N T tid).2 = -1) ↔ N ≤ tid := by
  rw [getMatrixWork_eq]
  by_cases h : N ≤ tid
  · simp [h]
  · have hw := workloadOf_pos N T hN hT
    rw [if_neg h]
    constructor
    · rintro ⟨h1, h2⟩
      exfalso
      have h1' : workloadOf N T * tid = -1 := h1
      have h2' : workloadOf N T * (tid + 1) +
          (if tid = T - 1 then remainderOf N T else 0) = -1 := h2
      by_cases ht : tid = T - 1
      · have h0 : (0:Int) ≤ tid := by omega
        linarith [mul_nonneg (by linarith : (0:Int) ≤ workloadOf N T) h0]
      · rw [if_neg ht, add_zero] at h2'
        have hx : workloadOf N T * (tid + 1) = workloadOf N T * tid + workloadOf N T := by
          ring
        linarith
    · intro hc
      exact absurd hc h

/-- Membership of a row in a thread's assigned range, in terms of the
workload/remainder closed form. -/
lemma assignedRows_iff (N T tid r : Int) (hN : 1 ≤ N) (hT : 1 ≤ T) :
    assignedRows N T tid r ↔
      (tid < N ∧ workloadOf N T * tid ≤ r ∧
        r < workloadOf N T * (tid + 1) + (if tid = T - 1 then remainderOf N T else 0)) := by
  unfold assignedRows
  rw [getMatrixWork_sentinel_iff N T hN hT, getMatrixWork_eq]
  by_cases h : N ≤ tid
  · simp [h]
  · have hlt : tid < N := by omega
    simp [h, hlt]

/-- The trace of `CalculateFilter` in terms of the workload closed form. -/
lemma calculateFilter_rows (m : Int → Int → Int) (N T : Int) (hN : 1 ≤ N) (hT : 1 ≤ T)
    (tid : Int) :
    (CalculateFilter m N T tid).2 =
      if N ≤ tid then []
      else (intRange (workloadOf N T * tid)
        (workloadOf N T * (tid + 1) + (if tid = T - 1 then remainderOf N T else 0))).map
        (fun row => (row, colVals m N row)) := by
  rw [calculateFilter_eq]
  by_cases h : N ≤ tid
  · rw [if_pos ((getMatrixWork_sentinel_iff N T hN hT tid).mpr h), if_pos h]
  · rw [if_neg (fun hc => h ((getMatrixWork_sentinel_iff N T hN hT tid).mp hc)), if_neg h,
      getMatrixWork_eq, if_neg h]

/-- Invariant of the work-distribution loop: after the first `k`
iterations the matrix is unchanged and the concatenated trace covers the
contiguous prefix `[0, min(workload·k, N))` of the rows (all of `[0, N)`
once `k = T`, since the last thread absorbs the remainder). -/
lemma mainLoopAux_eq (m : Int → Int → Int) (N T : Int) (hN : 1 ≤ N) (hT : 1 ≤ T) :
    ∀ k : Nat, (k : Int) ≤ T →
      mainLoopAux m N T k =
        (m, (intRange 0 (if (k : Int) = T then N
            else min (workloadOf N T * (k : Int)) N)).map
          (fun row => (row, colVals m N row))) := by
  have hw := workloadOf_pos N T hN hT
  intro k
  induction k with
  | zero =>
    intro _
    push_cast
    have h0 : ¬ ((0:Int) = T) := by omega
    rw [if_neg h0, mul_zero]
    have hm : min (0:Int) N = 0 := by omega
    rw [hm, intRange_self]
    rfl
  | succ k ih =>
    intro hk1
    push_cast at hk1
    have hkT : (k : Int) < T := by omega
    have ih' := ih (le_of_lt hkT)
    have step : mainLoopAux m N T (k+1) =
        ((CalculateFilter (mainLoopAux m N T k).1 N T (k:Int)).1,
          (mainLoopAux m N T k).2 ++ (CalculateFilter (mainLoopAux m N T k).1 N T (k:Int)).2) :=
      rfl
    push_cast
    rw [step, ih']
    dsimp only
    rw [calculateFilter_fst, calculateFilter_rows m N T hN hT (k:Int)]
    set W := workloadOf N T with hWdef
    set R := remainderOf N T with hRdef
    have h0k : (0:Int) ≤ W * (k:Int) := mul_nonneg (by omega) (Int.natCast_nonneg k)
    have hmono : W * (k:Int) ≤ W * ((k:Int)+1) :=
      mul_le_mul_of_nonneg_left (by omega) (by omega)
    by_cases hkN : N ≤ (k:Int)
    · rw [if_pos hkN, List.append_nil]
      have hkk : (k:Int) ≤ W * (k:Int) := le_mul_of_one_le_left (Int.natCast_nonneg k) hw
      have hEk : (if (k:Int) = T then N else min (W * (k:Int)) N) = N := by
        rw [if_neg (by omega)]
        omega
      have hEk1 : (if (k:Int) + 1 = T then N else min (W * ((k:Int) + 1)) N) = N := by
        by_cases hh : (k:Int) + 1 = T
        · rw [if_pos hh]
        · rw [if_neg hh]
          omega
      rw [hEk, hEk1]
    · push_neg at hkN
      rw [if_neg (show ¬ N ≤ (k:Int) by omega)]
      have hWkN : W * (k:Int) ≤ N := by
        by_cases hNT : N ≤ T
        · have hW1 : W = 1 := by rw [hWdef]; exact (sparse_vals N T hNT).1
          rw [hW1, one_mul]
          omega
        · push_neg at hNT
          have hs := dense_sum N T hT hNT
          rw [← hWdef, ← hRdef] at hs
          have hr := remainderOf_nonneg N T hN hT
          rw [← hRdef] at hr
          have h2 : W * (k:Int) ≤ W * (T-1) :=
            mul_le_mul_of_nonneg_left (by omega) (by omega)
          have h3 : W * (T-1) = W * T - W := by ring
          linarith
      have hEk : (if (k:Int) = T then N else min (W * (k:Int)) N) = W * (k:Int) := by
        rw [if_neg (by omega)]
        omega
      rw [hEk]
      by_cases hlast : (k:Int) = T - 1
      · rw [if_pos hlast]
        have hkT1 : (k:Int) + 1 = T := by omega
        have hend : W * ((k:Int) + 1) + R = N := by
          by_cases hNT : N ≤ T
          · have hW1 : W = 1 := by rw [hWdef]; exact (sparse_vals N T hNT).1
            have hR0 : R = 0 := by rw [hRdef]; exact (sparse_vals N T hNT).2
            rw [hW1, hR0, one_mul]
            omega
          · push_neg at hNT
            have hs := dense_sum N T hT hNT
            rw [← hWdef, ← hRdef] at hs
            rw [hkT1]
            linarith
        have hE1 : (if (k:Int) + 1 = T then N else min (W * ((k:Int) + 1)) N) = N := by
          rw [if_pos hkT1]
        rw [hend, hE1, ← List.map_append, intRange_append 0 (W * (k:Int)) N h0k hWkN]
      · rw [if_neg hlast, add_zero]
        have hk1T : ¬ ((k:Int) + 1 = T) := by omega
        have hup : W * ((k:Int) + 1) ≤ N := by
          by_cases hNT : N ≤ T
          · have hW1 : W = 1 := by rw [hWdef]; exact (sparse_vals N T hNT).1
            rw [hW1, one_mul]
            omega
          · push_neg at hNT
            have hs := dense_sum N T hT hNT
            rw [← hWdef, ← hRdef] at hs
            have hr := remainderOf_nonneg N T hN hT
            rw [← hRdef] at hr
            have h2 : W * ((k:Int) + 1) ≤ W * (T-1) :=
              mul_le_mul_of_nonneg_left (by omega) (by omega)
            have h3 : W * (T-1) = W * T - W := by ring
            linarith
        have hE1 : (if (k:Int) + 1 = T then N else min (W * ((k:Int) + 1)) N) =
            W * ((k:Int) + 1) := by
          rw [if_neg hk1T]
          omega
        rw [hE1, ← List.map_append,
          intRange_append 0 (W * (k:Int)) (W * ((k:Int) + 1)) h0k hmono]

/-- Unfolded form of `CalculateFilterOutput`. -/
lemma calculateFilterOutput_eq (m : Int → Int → Int) (N T tid : Int) :
    CalculateFilterOutput m N T tid =
      if (GetMatrixWork N T tid).1 = -1 ∧ (GetMatrixWork N T tid).2 = -1 then []
      else headerLine tid T ::
        ((CalculateFilter m N T tid).2).map (fun p => renderRow p.2) := rfl

/-- In the dense branch the workload is the floor division `N / T`. -/
lemma workloadOf_eq_ediv (N T : Int) (hT : 1 ≤ T) (hTN : T < N) :
    workloadOf N T = N / T := by
  unfold workloadOf
  rw [if_neg (by omega)]
  exact Int.tdiv_eq_ediv (by omega) (by omega)

/-- In the dense branch the remainder is `N mod T`. -/
lemma remainderOf_eq_emod (N T : Int) (hT : 1 ≤ T) (hTN : T < N) :
    remainderOf N T = N % T := by
  unfold remainderOf
  rw [if_neg (by omega)]
  exact Int.tmod_eq_emod (by omega) (by omega)

/-! ### Claim theorems -/

/-- Claim C3: for `1 ≤ T < N` and `tid ∈ [0, T)`, with `workload = ⌊N/T⌋`
and `remainder = N mod T`, thread `tid < T-1` gets the range
`[workload·tid, workload·(tid+1))` and the last thread `tid = T-1` gets
`[workload·(T-1), workload·T + remainder)`: all remainder rows go to the
last thread. -/
theorem getMatrixWork_dense_split (N T tid : Int) (hT : 1 ≤ T) (hTN : T < N)
    (h0 : 0 ≤ tid) (htT : tid < T) :
    (tid < T - 1 → GetMatrixWork N T tid = (N / T * tid, N / T * (tid + 1))) ∧
    (tid = T - 1 → GetMatrixWork N T tid = (N / T * (T - 1), N / T * T + N % T)) := by
  have hN : 1 ≤ N := by omega
  have hwe := workloadOf_eq_ediv N T hT hTN
  have hre := remainderOf_eq_emod N T hT hTN
  constructor
  · intro hlt
    rw [getMatrixWork_eq, if_neg (show ¬ N ≤ tid by omega),
      if_neg (show ¬ tid = T - 1 by omega), add_zero, hwe]
  · intro heq
    rw [getMatrixWork_eq, if_neg (show ¬ N ≤ tid by omega), if_pos heq, hwe, hre, heq]
    have h1 : T - 1 + 1 = T := by ring
    rw [h1]

/-- Witness for C3 at the spec's scenario `N = 10`, `T = 3`, last thread
`tid = 2`: range `[6, 10)` (workload 3, remainder 1 appended). -/
theorem getMatrixWork_dense_split_witness :
    (1:Int) ≤ 3 ∧ (3:Int) < 10 ∧ (0:Int) ≤ 2 ∧ (2:Int) < 3 ∧
      GetMatrixWork 10 3 2 = (6, 10) :=
  ⟨by decide, by decide, by decide, by decide,
   ((getMatrixWork_dense_split 10 3 2 (by decide) (by decide) (by decide) (by decide)).2
     (by decide)).trans (by decide)⟩

/-- Claim C4: for `T ≥ N ≥ 1` and `tid ∈ [0, T)`, `GetMatrixWork` returns
the one-row range `[tid, tid+1)` when `tid < N` and the empty sentinel when
`tid ≥ N`; at `T = N` every thread gets exactly one row. -/
theorem getMatrixWork_sparse_split (N T tid : Int) (hN : 1 ≤ N) (hNT : N ≤ T)
    (h0 : 0 ≤ tid) (htT : tid < T) :
    (tid < N → GetMatrixWork N T tid = (tid, tid + 1)) ∧
    (N ≤ tid → GetMatrixWork N T tid = (-1, -1)) ∧
    (T = N → GetMatrixWork N T tid = (tid, tid + 1)) := by
  obtain ⟨hW1, hR0⟩ := sparse_vals N T hNT
  refine ⟨?_, ?_, ?_⟩
  · intro hlt
    rw [getMatrixWork_eq, if_neg (show ¬ N ≤ tid by omega), hW1, hR0]
    simp
  · intro hge
    rw [getMatrixWork_eq, if_pos hge]
  · intro hTN
    rw [getMatrixWork_eq, if_neg (show ¬ N ≤ tid by omega), hW1, hR0]
    simp

/-- Witness for C4 at the spec's scenario `N = 4`, `T = 6`: thread 2 gets
`[2, 3)` and thread 4 gets the empty sentinel. -/
theorem getMatrixWork_sparse_split_witness :
    (1:Int) ≤ 4 ∧ (4:Int) ≤ 6 ∧
      GetMatrixWork 4 6 2 = (2, 3) ∧ GetMatrixWork 4 6 4 = (-1, -1) :=
  ⟨by decide, by decide,
   (getMatrixWork_sparse_split 4 6 2 (by decide) (by decide) (by decide) (by decide)).1
     (by decide),
   (getMatrixWork_sparse_split 4 6 4 (by decide) (by decide) (by decide) (by decide)).2.1
     (by decide)⟩

/-- Claim C5: when `GetMatrixWork` yields the empty sentinel the dispatch
returns immediately: for every matrix the trace is empty, the matrix state
is untouched, and nothing is printed (not even the thread header). -/
theorem calculateFilter_empty_range (N T tid : Int)
    (h : (GetMatrixWork N T tid).1 = -1 ∧ (GetMatrixWork N T tid).2 = -1) :
    ∀ m : Int → Int → Int,
      CalculateFilter m N T tid = (m, []) ∧ CalculateFilterOutput m N T tid = [] := by
  intro m
  constructor
  · rw [calculateFilter_eq, if_pos h]
  · rw [calculateFilterOutput_eq, if_pos h]

/-- Witness for C5 at `N = 4`, `T = 6`, `tid = 5` (an idle thread in the
spec's sparse scenario). -/
theorem calculateFilter_empty_range_witness :
    ((GetMatrixWork 4 6 5).1 = -1 ∧ (GetMatrixWork 4 6 5).2 = -1) ∧
      CalculateFilter mEx 4 6 5 = (mEx, []) ∧ CalculateFilterOutput mEx 4 6 5 = [] :=
  ⟨by decide, calculateFilter_empty_range 4 6 5 (by decide) mEx⟩

/-- Claim C7: `CalculateFilter` never mutates the source matrix: every
cell of the final matrix state equals its initial value, for every matrix,
dimension, thread count and thread index. -/
theorem calculateFilter_preserves_matrix (m : Int → Int → Int) (N T tid i j : Int) :
    (CalculateFilter m N T tid).1 i j = m i j := by
  rw [calculateFilter_fst]

/-- Claim C8: for a file of `S` bytes (`S` below the 2 GB limit),
`GetMatrixDimension` returns the integer square root of `S / 4`; in
particular a well-formed file of `N·N` 4-byte integers yields `N`. -/
theorem getMatrixDimension_isqrt (S : Nat) (hS : (S:Int) < 2^31) :
    GetMatrixDimension (S:Int) = (Nat.sqrt (S / 4) : Int) ∧
      ∀ n : Nat, S = 4 * n * n → GetMatrixDimension (S:Int) = (n : Int) := by
  have h1 : ((S:Int)).tdiv 4 = ((S / 4 : Nat) : Int) := (Int.ofNat_tdiv S 4).symm
  constructor
  · unfold GetMatrixDimension
    rw [h1, Int.toNat_natCast]
  · intro n hn
    unfold GetMatrixDimension
    rw [h1, Int.toNat_natCast]
    subst hn
    have h2 : 4 * n * n / 4 = n * n := by
      rw [mul_assoc]
      exact Nat.mul_div_cancel_left (n * n) (by norm_num)
    rw [h2, Nat.sqrt_eq]

/-- Witness for C8 at `S = 100 = 4·5·5`: dimension 5. -/
theorem getMatrixDimension_isqrt_witness :
    (((100:Nat)):Int) < 2^31 ∧ GetMatrixDimension ((100:Nat):Int) = ((5:Nat):Int) :=
  ⟨by decide, (getMatrixDimension_isqrt 100 (by decide)).2 5 (by decide)⟩

/-- Claim C1: for every `N ≥ 1` and `T ≥ 1` the ranges `GetMatrixWork`
assigns to the thread indices `0, …, T-1` are pairwise disjoint and their
union is exactly `[0, N)` (the empty sentinel contributing nothing). -/
theorem getMatrixWork_partition (N T : Int) (hN : 1 ≤ N) (hT : 1 ≤ T) :
    (∀ r : Int, (∃ tid : Int, 0 ≤ tid ∧ tid < T ∧ assignedRows N T tid r) ↔
      (0 ≤ r ∧ r < N)) ∧
    (∀ t1 t2 r : Int, 0 ≤ t1 → t1 < T → 0 ≤ t2 → t2 < T → t1 ≠ t2 →
      assignedRows N T t1 r → assignedRows N T t2 r → False) := by
  have hw := workloadOf_pos N T hN hT
  have hr0 := remainderOf_nonneg N T hN hT
  constructor
  · intro r
    constructor
    · rintro ⟨tid, h0, htT, hm⟩
      rw [assignedRows_iff N T tid r hN hT] at hm
      obtain ⟨htN, hlow, hupp⟩ := hm
      have hst : 0 ≤ workloadOf N T * tid := mul_nonneg (by omega) h0
      refine ⟨by omega, ?_⟩
      by_cases hNT : N ≤ T
      · obtain ⟨hW1, hR0⟩ := sparse_vals N T hNT
        rw [hW1, hR0, one_mul, ite_self, add_zero] at hupp
        omega
      · push_neg at hNT
        have hs := dense_sum N T hT hNT
        by_cases ht : tid = T - 1
        · rw [if_pos ht, ht] at hupp
          have h2 : workloadOf N T * (T - 1 + 1) = workloadOf N T * T := by ring
          rw [h2] at hupp
          linarith
        · rw [if_neg ht, add_zero] at hupp
          have h2 : workloadOf N T * (tid + 1) ≤ workloadOf N T * T :=
            mul_le_mul_of_nonneg_left (by omega) (by omega)
          linarith
    · rintro ⟨h0r, hrN⟩
      by_cases hNT : N ≤ T
      · obtain ⟨hW1, hR0⟩ := sparse_vals N T hNT
        refine ⟨r, h0r, by omega, ?_⟩
        rw [assignedRows_iff N T r r hN hT, hW1, hR0, one_mul, ite_self, add_zero]
        omega
      · push_neg at hNT
        have hs := dense_sum N T hT hNT
        have hWpos : 0 < workloadOf N T := by omega
        have hqmod := Int.ediv_add_emod r (workloadOf N T)
        have hm0 : 0 ≤ r % workloadOf N T := Int.emod_nonneg r (by omega)
        have hmW : r % workloadOf N T < workloadOf N T := Int.emod_lt_of_pos r hWpos
        have hq0 : 0 ≤ r / workloadOf N T := Int.ediv_nonneg h0r (by omega)
        have hlow : workloadOf N T * (r / workloadOf N T) ≤ r := by linarith
        have hupp : r < workloadOf N T * (r / workloadOf N T + 1) := by
          have h3 : workloadOf N T * (r / workloadOf N T + 1) =
              workloadOf N T * (r / workloadOf N T) + workloadOf N T := by ring
          linarith
        by_cases hcase : r / workloadOf N T < T - 1
        · refine ⟨r / workloadOf N T, hq0, by omega, ?_⟩
          rw [assignedRows_iff N T (r / workloadOf N T) r hN hT]
          have hqN : r / workloadOf N T < N := by
            have h4 : r / workloadOf N T ≤ workloadOf N T * (r / workloadOf N T) :=
              le_mul_of_one_le_left hq0 hw
            linarith
          refine ⟨hqN, hlow, ?_⟩
          rw [if_neg (show ¬ r / workloadOf N T = T - 1 by omega), add_zero]
          exact hupp
        · push_neg at hcase
          refine ⟨T - 1, by omega, by omega, ?_⟩
          rw [assignedRows_iff N T (T - 1) r hN hT]
          refine ⟨by omega, ?_, ?_⟩
          · have h2 : workloadOf N T * (T - 1) ≤ workloadOf N T * (r / workloadOf N T) :=
              mul_le_mul_of_nonneg_left hcase (by omega)
            linarith
          · rw [if_pos rfl]
            have h3 : workloadOf N T * (T - 1 + 1) = workloadOf N T * T := by ring
            rw [h3]
            linarith
  · intro t1 t2 r h10 h1T h20 h2T hne hm1 hm2
    have key : ∀ a b : Int, 0 ≤ a → b < T → a < b →
        assignedRows N T a r → assignedRows N T b r → False := by
      intro a b ha0 hbT hab hma hmb
      rw [assignedRows_iff N T a r hN hT] at hma
      rw [assignedRows_iff N T b r hN hT] at hmb
      obtain ⟨haN, halow, haupp⟩ := hma
      obtain ⟨hbN, hblow, hbupp⟩ := hmb
      rw [if_neg (show ¬ a = T - 1 by omega), add_zero] at haupp
      have h2 : workloadOf N T * (a + 1) ≤ workloadOf N T * b :=
        mul_le_mul_of_nonneg_left (by omega) (by omega)
      linarith
    rcases lt_or_gt_of_ne hne with h | h
    · exact key t1 t2 h10 h2T h hm1 hm2
    · exact key t2 t1 h20 h1T h hm2 hm1

/-- Witness for C1 at `N = 10`, `T = 3`, row 7: some valid thread owns it. -/
theorem getMatrixWork_partition_witness :
    (1:Int) ≤ 10 ∧ (1:Int) ≤ 3 ∧
      ((∃ tid : Int, 0 ≤ tid ∧ tid < 3 ∧ assignedRows 10 3 tid 7) ↔
        (0 ≤ (7:Int) ∧ (7:Int) < 10)) :=
  ⟨by decide, by decide, (getMatrixWork_partition 10 3 (by decide) (by decide)).1 7⟩

/-- Claim C6: for a thread whose range is non-empty, the dispatch
processes exactly the rows `start, …, end-1` in ascending order; each
trace entry carries the row's `N` values in column order `0, …, N-1`, and
the console output is the thread header followed by one tab-separated line
per row. -/
theorem calculateFilter_rows_ascending (m : Int → Int → Int) (N T tid : Int)
    (hN : 1 ≤ N) (hT : 1 ≤ T) (h0 : 0 ≤ tid) (htT : tid < T)
    (hne : ¬((GetMatrixWork N T tid).1 = -1 ∧ (GetMatrixWork N T tid).2 = -1)) :
    ((CalculateFilter m N T tid).2).map Prod.fst =
        intRange (GetMatrixWork N T tid).1 (GetMatrixWork N T tid).2 ∧
    List.Pairwise (· < ·) (((CalculateFilter m N T tid).2).map Prod.fst) ∧
    (∀ p ∈ (CalculateFilter m N T tid).2,
      p.2 = (List.range N.toNat).map (fun (j : Nat) => m p.1 (j : Int))) ∧
    CalculateFilterOutput m N T tid =
      headerLine tid T ::
        ((CalculateFilter m N T tid).2).map (fun p => renderRow p.2) := by
  have hmap : ((CalculateFilter m N T tid).2).map Prod.fst =
      intRange (GetMatrixWork N T tid).1 (GetMatrixWork N T tid).2 := by
    rw [calculateFilter_eq, if_neg hne]
    dsimp only
    rw [List.map_map]
    have hf : (Prod.fst ∘ fun (row : Int) => (row, colVals m N row)) = id := by
      funext x
      rfl
    rw [hf, List.map_id]
  refine ⟨hmap, ?_, ?_, ?_⟩
  · rw [hmap]
    exact intRange_pairwise _ _
  · intro p hp
    rw [calculateFilter_eq, if_neg hne] at hp
    dsimp only at hp
    rw [List.mem_map] at hp
    obtain ⟨row, hrow, hpe⟩ := hp
    rw [← hpe]
    rfl
  · rw [calculateFilterOutput_eq, if_neg hne]

/-- Witness for C6 at `N = 3`, `T = 2`, `tid = 1` (range `[1, 3)`). -/
theorem calculateFilter_rows_ascending_witness :
    ((1:Int) ≤ 3 ∧ (1:Int) ≤ 2 ∧ (0:Int) ≤ 1 ∧ (1:Int) < 2 ∧
      ¬((GetMatrixWork 3 2 1).1 = -1 ∧ (GetMatrixWork 3 2 1).2 = -1)) ∧
    ((CalculateFilter mEx 3 2 1).2).map Prod.fst =
      intRange (GetMatrixWork 3 2 1).1 (GetMatrixWork 3 2 1).2 :=
  ⟨⟨by decide, by decide, by decide, by decide, by decide⟩,
   (calculateFilter_rows_ascending mEx 3 2 1 (by decide) (by decide) (by decide) (by decide)
     (by decide)).1⟩

/-- Claim C9: the sequential loop in `main` processes every row index of
`[0, N)` exactly once, in globally ascending order: the concatenated trace
of all `T` dispatch calls lists the rows as exactly `0, 1, …, N-1`. -/
theorem mainLoop_rows (m : Int → Int → Int) (N T : Int) (hN : 1 ≤ N) (hT : 1 ≤ T) :
    ((mainLoop m N T).2).map Prod.fst = intRange 0 N := by
  unfold mainLoop
  rw [mainLoopAux_eq m N T hN hT T.toNat (by omega)]
  have hc : ((T.toNat : Nat) : Int) = T := Int.toNat_of_nonneg (by omega)
  rw [if_pos hc]
  dsimp only
  rw [List.map_map]
  have hf : (Prod.fst ∘ fun (row : Int) => (row, colVals m N row)) = id := by
    funext x
    rfl
  rw [hf, List.map_id]

/-- Witness for C9 at `N = 10`, `T = 3`. -/
theorem mainLoop_rows_witness :
    (1:Int) ≤ 10 ∧ (1:Int) ≤ 3 ∧
      ((mainLoop mEx 10 3).2).map Prod.fst = intRange 0 10 :=
  ⟨by decide, by decide, mainLoop_rows mEx 10 3 (by decide) (by decide)⟩

/-- Claim C2 (failing input): the validity check is `atoi(...) == 0`, so
the invocation `convolution matrix -3 2` — whose filter depth `-3` is an
integer but not `> 0` — is accepted: `ProcessArguments` does not exit, it
stores depth `-3` and proceeds into the core work, contradicting both the
claim and the code's own usage text `Where filterDepth and numThreads are
ints > 0`. -/
theorem processArguments_accepts_negative_depth :
    ProcessArguments ["convolution", "matrix", "-3", "2"] =
      Except.ok ("matrix", -3, 2) ∧ (-3 : Int) ≤ 0 := by
  constructor
  · rfl
  · decide

/-- Claim C10 (counterexample to the non-disjointness clause): at `N = 9`,
`T = 3` the contract-violating index `tid = 3` (with `T ≤ 3 < N`) yields
the range `[9, 12)`, which is disjoint from the union `[0,3) ∪ [3,6) ∪
[6,9)` of the valid threads' ranges. -/
theorem getMatrixWork_rogue_tid_can_be_disjoint :
    (3:Int) ≤ 3 ∧ (3:Int) < 9 ∧
    GetMatrixWork 9 3 0 = (0, 3) ∧ GetMatrixWork 9 3 1 = (3, 6) ∧
    GetMatrixWork 9 3 2 = (6, 9) ∧ GetMatrixWork 9 3 3 = (9, 12) ∧
    Set.Ico (9:Int) 12 ∩
      (Set.Ico (0:Int) 3 ∪ Set.Ico (3:Int) 6 ∪ Set.Ico (6:Int) 9) = ∅ := by
  refine ⟨by decide, by decide, by decide, by decide, by decide, by decide, ?_⟩
  ext x
  simp only [Set.mem_inter_iff, Set.mem_Ico, Set.mem_union, Set.mem_empty_iff_false,
    iff_false, not_and]
  omega

/-- Claim C10 (amended): `GetMatrixWork` is total and performs no
validation of `tid`: for `N ≥ 1`, `T ≥ 1` it returns the `(-1, -1)`
sentinel iff `tid ≥ N`, and for a contract-violating `T ≤ tid < N` it
returns the non-empty range `[⌊N/T⌋·tid, ⌊N/T⌋·(tid+1))` — which may, but
need not, overlap the valid threads' ranges. -/
theorem getMatrixWork_no_tid_validation (N T : Int) (hN : 1 ≤ N) (hT : 1 ≤ T) (tid : Int) :
    (((GetMatrixWork N T tid).1 = -1 ∧ (GetMatrixWork N T tid).2 = -1) ↔ N ≤ tid) ∧
    (T ≤ tid → tid < N →
      GetMatrixWork N T tid = (N / T * tid, N / T * (tid + 1)) ∧
      N / T * tid < N / T * (tid + 1)) := by
  refine ⟨getMatrixWork_sentinel_iff N T hN hT tid, ?_⟩
  intro hTt htN
  have hTN : T < N := by omega
  have hwe := workloadOf_eq_ediv N T hT hTN
  have hw := workloadOf_pos N T hN hT
  rw [hwe] at hw
  constructor
  · rw [getMatrixWork_eq, if_neg (show ¬ N ≤ tid by omega),
      if_neg (show ¬ tid = T - 1 by omega), add_zero, hwe]
  · have h2 : N / T * (tid + 1) = N / T * tid + N / T := by ring
    rw [h2]
    linarith

/-- Witness for the amended C10 at `N = 5`, `T = 2`: `tid = 7 ≥ N` is the
sentinel case, and the contract-violating `tid = 3` gets `[6, 8)`. -/
theorem getMatrixWork_no_tid_validation_witness :
    (1:Int) ≤ 5 ∧ (1:Int) ≤ 2 ∧
    (((GetMatrixWork 5 2 7).1 = -1 ∧ (GetMatrixWork 5 2 7).2 = -1) ↔ (5:Int) ≤ 7) ∧
    GetMatrixWork 5 2 3 = (6, 8) :=
  ⟨by decide, by decide,
   (getMatrixWork_no_tid_validation 5 2 (by decide) (by decide) 7).1,
   (((getMatrixWork_no_tid_validation 5 2 (by decide) (by decide) 3).2
     (by decide) (by decide)).1).trans (by decide)⟩
